import Mathlib

set_option maxHeartbeats 1000000

/-!
Verification of the ingestion core of the omghy repository
(src/indexnew.js and src/epg-manager.js).

Strings are modeled as List Char.  JavaScript numbers holding integral
values are modeled as Nat or Int; Date values are modeled as local-clock
milliseconds (an Int), which is order-isomorphic to the JS Date values the
code compares, since every Date here is built by the same local-time
constructor.  Network fetches are modeled as explicit arguments giving the
outcome per URL (none models a failed or timed-out request).
-/

/-- Whitespace characters removed by the trim method of JS strings (the
    ASCII ones; the documents handled by the code are ASCII). -/
def isJsWs (c : Char) : Bool :=
  c = ' ' || c = '\t' || c = '\n' || c = '\r' || c = '\x0b' || c = '\x0c'

/-- Model of the trim method: remove whitespace from both ends. -/
def jsTrim (s : List Char) : List Char :=
  ((s.dropWhile isJsWs).reverse.dropWhile isJsWs).reverse

/-- Model of the split method with a one-character separator: every
    occurrence splits, empty pieces are kept, and splitting the empty
    string yields one empty piece. -/
def splitOnChar (sep : Char) : List Char → List (List Char)
  | [] => [[]]
  | c :: rest =>
    if c = sep then [] :: splitOnChar sep rest
    else
      match splitOnChar sep rest with
      | s :: ss => (c :: s) :: ss
      | [] => [[c]]

/-- ASCII lowercasing as performed by toLowerCase on the identifiers the
    code normalizes. -/
def jsToLower (c : Char) : Char :=
  if 'A' ≤ c ∧ c ≤ 'Z' then Char.ofNat (c.toNat + 32) else c

/-- Word characters of the JS regex word class: letters, digits and the
    underscore. -/
def isWordChar (c : Char) : Bool :=
  ('a' ≤ c && c ≤ 'z') || ('A' ≤ c && c ≤ 'Z') || ('0' ≤ c && c ≤ '9') || c = '_'

/-- Decimal digit character, for n below ten. -/
def decDigit (n : Nat) : Char := Char.ofNat (48 + n)

/-- Decimal digits, with a fuel argument that only bounds the recursion
    depth and never runs out, since the number shrinks by a factor of ten
    per step while the fuel drops by one; the fuel keeps the recursion
    structural so that the kernel can evaluate it. -/
def natReprGo : Nat → Nat → List Char
  | 0, n => [decDigit (n % 10)]
  | fuel + 1, n =>
    if n < 10 then [decDigit n] else natReprGo fuel (n / 10) ++ [decDigit (n % 10)]

/-- Decimal representation of a Nat, as produced by JS template
    interpolation of an integer index. -/
def natRepr (n : Nat) : List Char := natReprGo n n

theorem natReprGo_irrel : ∀ (f1 n f2 : Nat), n ≤ f1 → n ≤ f2 →
    natReprGo f1 n = natReprGo f2 n := by
  intro f1
  induction f1 with
  | zero =>
    intro n f2 h1 _
    interval_cases n
    cases f2 with
    | zero => rfl
    | succ g => simp [natReprGo]
  | succ f ih =>
    intro n f2 h1 h2
    by_cases hn : n < 10
    · cases f2 with
      | zero =>
        interval_cases n
        simp [natReprGo]
      | succ g => simp [natReprGo, hn]
    · cases f2 with
      | zero => omega
      | succ g =>
        have hd : n / 10 < n := Nat.div_lt_self (by omega) (by omega)
        rw [natReprGo, natReprGo, if_neg hn, if_neg hn,
          ih (n / 10) g (by omega) (by omega)]

theorem natRepr_lt (n : Nat) (h : n < 10) : natRepr n = [decDigit n] := by
  unfold natRepr
  cases n with
  | zero => simp [natReprGo]
  | succ k => simp [natReprGo, h]

theorem natRepr_ge (n : Nat) (h : ¬ n < 10) :
    natRepr n = natRepr (n / 10) ++ [decDigit (n % 10)] := by
  obtain ⟨k, rfl⟩ : ∃ k, n = k + 1 := ⟨n - 1, by omega⟩
  have hd : (k + 1) / 10 < k + 1 := Nat.div_lt_self (by omega) (by omega)
  unfold natRepr
  rw [natReprGo, if_neg h, natReprGo_irrel k ((k + 1) / 10) ((k + 1) / 10) (by omega) (by omega)]

theorem natRepr_ne_nil (n : Nat) : natRepr n ≠ [] := by
  by_cases h : n < 10
  · rw [natRepr_lt n h]
    simp
  · rw [natRepr_ge n h]
    simp

theorem decDigit_lt_inj : ∀ m < 10, ∀ n < 10, decDigit m = decDigit n → m = n := by
  decide

theorem decDigit_lt_ne_us : ∀ n < 10, decDigit n ≠ '_' := by
  decide

theorem natRepr_no_us : ∀ n : Nat, '_' ∉ natRepr n := by
  intro n
  induction n using Nat.strong_induction_on with
  | _ n ih =>
    by_cases h : n < 10
    · rw [natRepr_lt n h]
      simp [(decDigit_lt_ne_us n h).symm]
    · rw [natRepr_ge n h]
      have h1 := ih (n / 10) (Nat.div_lt_self (by omega) (by omega))
      have h2 := decDigit_lt_ne_us (n % 10) (Nat.mod_lt n (by omega))
      simp [h1, h2.symm]

theorem natRepr_inj : ∀ m n : Nat, natRepr m = natRepr n → m = n := by
  intro m
  induction m using Nat.strong_induction_on with
  | _ m ih =>
    intro n h
    by_cases hm : m < 10 <;> by_cases hn : n < 10
    · rw [natRepr_lt m hm, natRepr_lt n hn] at h
      simp at h
      exact decDigit_lt_inj m hm n hn h
    · rw [natRepr_lt m hm, natRepr_ge n hn] at h
      have hl := congrArg List.length h
      simp at hl
      exact absurd hl (natRepr_ne_nil (n / 10))
    · rw [natRepr_ge m hm, natRepr_lt n hn] at h
      have hl := congrArg List.length h
      simp at hl
      exact absurd hl (natRepr_ne_nil (m / 10))
    · rw [natRepr_ge m hm, natRepr_ge n hn] at h
      have h2 := List.append_inj' h (by simp)
      have hq := ih (m / 10) (Nat.div_lt_self (by omega) (by omega)) (n / 10)
        (by simpa using h2.1)
      have hr : m % 10 = n % 10 := by
        have := h2.2
        simp at this
        exact decDigit_lt_inj (m % 10) (Nat.mod_lt m (by omega)) (n % 10)
          (Nat.mod_lt n (by omega)) this
      omega

/-- Helper for id disjointness: in a string of shape left, underscore,
    right where the right part holds no underscore, the right part is
    determined by the whole string. -/
theorem us_suffix_eq : ∀ (t1 : List Char) {t2 d1 d2 : List Char},
    '_' ∉ d1 → '_' ∉ d2 → t1 ++ '_' :: d1 = t2 ++ '_' :: d2 → d1 = d2 := by
  intro t1
  induction t1 with
  | nil =>
    intro t2 d1 d2 h1 h2 h
    cases t2 with
    | nil => simpa using h
    | cons c t2 =>
      simp at h
      exact absurd (h.2 ▸ List.mem_append_right t2 (List.mem_cons_self '_' d2)) h1
  | cons c t1 ih =>
    intro t2 d1 d2 h1 h2 h
    cases t2 with
    | nil =>
      simp at h
      exact absurd (h.2 ▸ List.mem_append_right t1 (List.mem_cons_self '_' d1)) h2
    | cons c2 t2 =>
      simp at h
      exact ih h1 h2 h.2

/-- Value of a hexadecimal digit character in a percent escape. -/
def hexVal (c : Char) : Option Nat :=
  if '0' ≤ c ∧ c ≤ '9' then some (c.toNat - 48)
  else if 'A' ≤ c ∧ c ≤ 'F' then some (c.toNat - 55)
  else if 'a' ≤ c ∧ c ≤ 'f' then some (c.toNat - 87)
  else none

/-- Value of a UTF-8 continuation byte written as a percent escape: the
    three characters must be a percent sign and two hex digits forming a
    byte in the range 128 to 191. -/
def contByte (p h1 h2 : Char) : Option Nat :=
  if p = '%' then
    match hexVal h1, hexVal h2 with
    | some a, some b =>
      if 128 ≤ 16 * a + b ∧ 16 * a + b ≤ 191 then some (16 * a + b) else none
    | _, _ => none
  else none

/-- Decode one percent escape of decodeURIComponent, given the characters
    after the leading percent sign.  The first two characters must be hex
    digits giving a byte; a byte with the high bit set must begin a valid,
    shortest-form UTF-8 sequence whose continuation bytes are themselves
    percent escapes, exactly as the builtin requires.  Returns the decoded
    character and how many characters were consumed; none models the
    URIError the builtin throws. -/
def escParse (rest : List Char) : Option (Char × Nat) :=
  match rest with
  | h1 :: h2 :: r1 =>
    match hexVal h1, hexVal h2 with
    | some a, some b =>
      if 16 * a + b < 128 then some (Char.ofNat (16 * a + b), 2)
      else if 194 ≤ 16 * a + b ∧ 16 * a + b ≤ 223 then
        match r1 with
        | p3 :: h3 :: h4 :: _ =>
          match contByte p3 h3 h4 with
          | some b2 => some (Char.ofNat ((16 * a + b - 192) * 64 + (b2 - 128)), 5)
          | none => none
        | _ => none
      else if 224 ≤ 16 * a + b ∧ 16 * a + b ≤ 239 then
        match r1 with
        | p3 :: h3 :: h4 :: p5 :: h5 :: h6 :: _ =>
          match contByte p3 h3 h4, contByte p5 h5 h6 with
          | some b2, some b3 =>
            if 2048 ≤ (16 * a + b - 224) * 4096 + (b2 - 128) * 64 + (b3 - 128) ∧
               ¬ (55296 ≤ (16 * a + b - 224) * 4096 + (b2 - 128) * 64 + (b3 - 128) ∧
                  (16 * a + b - 224) * 4096 + (b2 - 128) * 64 + (b3 - 128) ≤ 57343) then
              some (Char.ofNat ((16 * a + b - 224) * 4096 + (b2 - 128) * 64 + (b3 - 128)), 8)
            else none
          | _, _ => none
        | _ => none
      else if 240 ≤ 16 * a + b ∧ 16 * a + b ≤ 244 then
        match r1 with
        | p3 :: h3 :: h4 :: p5 :: h5 :: h6 :: p7 :: h7 :: h8 :: _ =>
          match contByte p3 h3 h4, contByte p5 h5 h6, contByte p7 h7 h8 with
          | some b2, some b3, some b4 =>
            if 65536 ≤ (16 * a + b - 240) * 262144 + (b2 - 128) * 4096 + (b3 - 128) * 64 + (b4 - 128) ∧
               (16 * a + b - 240) * 262144 + (b2 - 128) * 4096 + (b3 - 128) * 64 + (b4 - 128) ≤ 1114111 then
              some (Char.ofNat ((16 * a + b - 240) * 262144 + (b2 - 128) * 4096 +
                (b3 - 128) * 64 + (b4 - 128)), 11)
            else none
          | _, _, _ => none
        | _ => none
      else none
    | _, _ => none
  | _ => none

/-- Model of one full decodeURIComponent pass.  The first argument counts
    characters of an already-decoded escape still to be skipped; it never
    exceeds the remaining characters.  At skip zero, a percent sign starts
    an escape handled by escParse and every other character passes through
    unchanged. -/
def decodeGo : Nat → List Char → Option (List Char)
  | n + 1, _ :: rest => decodeGo n rest
  | _ + 1, [] => none
  | 0, [] => some []
  | 0, c :: rest =>
    if c = '%' then
      match escParse rest with
      | some (ch, k) =>
        match decodeGo k rest with
        | some t => some (ch :: t)
        | none => none
      | none => none
    else
      match decodeGo 0 rest with
      | some t => some (c :: t)
      | none => none

/-- Model of the decodeURIComponent builtin on a character list. -/
def decodeCore (s : List Char) : Option (List Char) := decodeGo 0 s

theorem escParse_consumed {r : List Char} {ch : Char} {k : Nat}
    (h : escParse r = some (ch, k)) : 2 ≤ k ∧ k ≤ r.length := by
  unfold escParse at h
  repeat' split at h
  all_goals simp_all
  all_goals omega

theorem decodeGo_some_length : ∀ (s : List Char) (n : Nat) (t : List Char),
    decodeGo n s = some t → t.length + n ≤ s.length := by
  intro s
  induction s with
  | nil =>
    intro n t h
    cases n with
    | zero =>
      rw [decodeGo] at h
      simp at h
      simp [← h]
    | succ n =>
      rw [decodeGo] at h
      simp at h
  | cons c rest ih =>
    intro n t h
    cases n with
    | succ n =>
      rw [decodeGo] at h
      have := ih n t h
      simp
      omega
    | zero =>
      rw [decodeGo] at h
      by_cases hc : c = '%'
      · rw [if_pos hc] at h
        cases hesc : escParse rest with
        | none => rw [hesc] at h; exact absurd h (by simp)
        | some p =>
          obtain ⟨ch, k⟩ := p
          rw [hesc] at h
          dsimp only at h
          cases hrec : decodeGo k rest with
          | none => rw [hrec] at h; exact absurd h (by simp)
          | some t2 =>
            rw [hrec] at h
            simp at h
            have h1 := ih k t2 hrec
            have h2 := escParse_consumed hesc
            simp [← h]
            omega
      · rw [if_neg hc] at h
        cases hrec : decodeGo 0 rest with
        | none => rw [hrec] at h; exact absurd h (by simp)
        | some t2 =>
          rw [hrec] at h
          simp at h
          have h1 := ih 0 t2 hrec
          simp [← h]
          omega

theorem decodeGo_some_strict : ∀ (s t : List Char),
    decodeGo 0 s = some t → '%' ∈ s → t.length < s.length := by
  intro s
  induction s with
  | nil =>
    intro t h hm
    simp at hm
  | cons c rest ih =>
    intro t h hm
    rw [decodeGo] at h
    by_cases hc : c = '%'
    · rw [if_pos hc] at h
      cases hesc : escParse rest with
      | none => rw [hesc] at h; exact absurd h (by simp)
      | some p =>
        obtain ⟨ch, k⟩ := p
        rw [hesc] at h
        dsimp only at h
        cases hrec : decodeGo k rest with
        | none => rw [hrec] at h; exact absurd h (by simp)
        | some t2 =>
          rw [hrec] at h
          simp at h
          have h1 := decodeGo_some_length rest k t2 hrec
          have h2 := escParse_consumed hesc
          simp [← h]
          omega
    · rw [if_neg hc] at h
      cases hrec : decodeGo 0 rest with
      | none => rw [hrec] at h; exact absurd h (by simp)
      | some t2 =>
        rw [hrec] at h
        simp at h
        have hmr : '%' ∈ rest := by
          cases List.mem_cons.mp hm with
          | inl hh => exact absurd hh.symm hc
          | inr hh => exact hh
        have h1 := ih t2 hrec hmr
        simp [← h]
        omega

theorem decodeCore_some_strict {s t : List Char} (h : decodeCore s = some t)
    (hm : '%' ∈ s) : t.length < s.length :=
  decodeGo_some_strict s t h hm

theorem decodeCore_no_pct : ∀ s : List Char, '%' ∉ s → decodeCore s = some s := by
  intro s
  induction s with
  | nil => intro h; rfl
  | cons c rest ih =>
    intro h
    have hc : c ≠ '%' := fun hh => h (hh ▸ List.mem_cons_self c rest)
    have hr := ih (fun hm => h (List.mem_cons_of_mem c hm))
    unfold decodeCore at hr ⊢
    rw [decodeGo, if_neg hc, hr]

/-- Model of the repeated decodeURIComponent loop shared by parseM3U and
    parseEPG (indexnew.js lines 61 to 65 and 167 to 171): decode while the
    value holds a percent sign, stopping at a fixed point.  The Bool
    records whether the loop finished without a decode error; on an error
    the returned value is the one the loop variable held when the throw
    happened, which is the last successfully decoded value. -/
def decodeToFix (s : List Char) : Bool × List Char :=
  if hp : '%' ∈ s then
    match hd : decodeCore s with
    | none => (false, s)
    | some t =>
      if t = s then (true, s)
      else decodeToFix t
  else (true, s)
termination_by s.length
decreasing_by exact decodeCore_some_strict hd hp

theorem decodeToFix_no_pct (s : List Char) (h : '%' ∉ s) : decodeToFix s = (true, s) := by
  unfold decodeToFix
  simp [h]

theorem decodeToFix_fail (s : List Char) (hp : '%' ∈ s) (h : decodeCore s = none) :
    decodeToFix s = (false, s) := by
  unfold decodeToFix
  rw [dif_pos hp]
  split
  · rfl
  · rename_i t hd
    rw [h] at hd
    cases hd

theorem decodeToFix_step (s t : List Char) (hp : '%' ∈ s) (h : decodeCore s = some t)
    (hne : t ≠ s) : decodeToFix s = decodeToFix t := by
  conv_lhs => unfold decodeToFix
  rw [dif_pos hp]
  split
  · rename_i hd
    rw [h] at hd
    cases hd
  · rename_i t2 hd
    rw [h] at hd
    injection hd with hd2
    subst hd2
    rw [if_neg hne]

theorem decodeToFix_fix (s : List Char) (hp : '%' ∈ s) (h : decodeCore s = some s) :
    decodeToFix s = (true, s) := by
  unfold decodeToFix
  rw [dif_pos hp]
  split
  · rename_i hd
    rw [h] at hd
    cases hd
  · rename_i t2 hd
    rw [h] at hd
    injection hd with hd2
    subst hd2
    rw [if_pos rfl]

/-- One global literal replace, as performed by the replace method with a
    global literal pattern: scan left to right, replace each
    non-overlapping occurrence, resume after the replaced text.  The skip
    argument counts characters of a just-matched occurrence still to be
    consumed without rescanning. -/
def replaceAllGo (pat rep : List Char) : Nat → List Char → List Char
  | _ + 1, [] => []
  | n + 1, _ :: rest => replaceAllGo pat rep n rest
  | 0, [] => []
  | 0, c :: rest =>
    if pat.isPrefixOf (c :: rest) then
      rep ++ replaceAllGo pat rep (pat.length - 1) rest
    else c :: replaceAllGo pat rep 0 rest

def replaceAll (pat rep s : List Char) : List Char := replaceAllGo pat rep 0 s

/-- Model of the HTML ampersand entity normalization of parseM3U line 66:
    replace every occurrence of the numeric entity and then every
    occurrence of the named entity by an ampersand. -/
def entityReplace (s : List Char) : List Char :=
  replaceAll "&amp;".toList "&".toList (replaceAll "&#38;".toList "&".toList s)

/-- Control-parameter keywords stripped by the regex of parseM3U line 67. -/
def ctrlKeywords : List (List Char) :=
  ["epg".toList, "language".toList, "update_interval".toList, "epg_enabled".toList]

/-- Length of the keyword-plus-equals prefix when one of the four control
    keywords followed by an equals sign begins the list.  At most one of
    the four alternatives can match at a given position, so the regex
    alternation order does not matter. -/
def findCtrl (rest : List Char) : Option Nat :=
  match ctrlKeywords.find? (fun k => (k ++ ['=']).isPrefixOf rest) with
  | some k => some (k.length + 1)
  | none => none

/-- Model of the global regex replace of parseM3U line 67: at an ampersand
    followed by a control keyword and an equals sign, remove the ampersand,
    the keyword, the equals sign and the following run of non-comma
    characters, then resume scanning after the removed text.  The skip
    argument counts characters of a matched occurrence still to be
    consumed. -/
def stripParamsGo : Nat → List Char → List Char
  | _ + 1, [] => []
  | n + 1, _ :: rest => stripParamsGo n rest
  | 0, [] => []
  | 0, c :: rest =>
    if c = '&' then
      match findCtrl rest with
      | some klen =>
        stripParamsGo (klen + ((rest.drop klen).takeWhile (fun c2 => c2 ≠ ',')).length) rest
      | none => '&' :: stripParamsGo 0 rest
    else c :: stripParamsGo 0 rest

def stripParams (s : List Char) : List Char := stripParamsGo 0 s

/-- Split on commas, trim every entry, and keep the nonempty entries that
    start with http: the urlList construction of parseM3U line 74. -/
def splitTrimFilter (s : List Char) : List (List Char) :=
  ((splitOnChar ',' s).map jsTrim).filter
    (fun u => !u.isEmpty && "http".toList.isPrefixOf u)

/-- Model of the URL-list normalization of parseM3U lines 59 to 74: decode
    repeatedly to a fixed point; on success normalize ampersand entities
    and strip the four control parameters; on a decode error the catch
    block falls back to the original raw input, so the entity and
    parameter steps are skipped; finally split on commas, trim, and keep
    absolute http entries. -/
def normalizeUrls (s : List Char) : List (List Char) :=
  match decodeToFix s with
  | (true, v) => splitTrimFilter (stripParams (entityReplace v))
  | (false, _) => splitTrimFilter s

/-- Model of the EPG URL cleanup of parseEPG lines 165 to 174: the same
    decode loop, but the catch block leaves the loop variable untouched,
    keeping the last successfully decoded value. -/
def epgCleanUrl (s : List Char) : List Char := (decodeToFix s).2

/-- Leftmost match of a regex of shape literal, then one or more non-quote
    characters, then a closing quote, returning the captured value.  When
    the literal occurs but the capture cannot complete, the scan resumes
    one character further, as regex search does. -/
def matchAttr (pat : List Char) : List Char → Option (List Char)
  | [] => none
  | c :: rest =>
    if pat.isPrefixOf (c :: rest) then
      let after := (c :: rest).drop pat.length
      let val := after.takeWhile (fun c2 => c2 ≠ '"')
      if !val.isEmpty && ((after.drop val.length).head? == some '"') then some val
      else matchAttr pat rest
    else matchAttr pat rest

/-- Everything after the first comma, if any: the capture of the name
    regex of parseM3U line 105, whose match starts at the first comma and
    whose capture extends to the end of the line. -/
def afterFirstComma : List Char → Option (List Char)
  | [] => none
  | c :: rest => if c = ',' then some rest else afterFirstComma rest

/-- Fallback tvg-id of parseM3U line 109: lowercase the name and replace
    every non-word character by an underscore. -/
def slugify (s : List Char) : List Char :=
  (s.map jsToLower).map (fun c => if isWordChar c then c else '_')

/-- One stream entry of a channel: the URL line and the display name; the
    constant User-Agent header of parseM3U line 134 carries no information
    and is not modeled. -/
structure StreamEntry where
  url : List Char
  name : List Char
  deriving DecidableEq, Repr

/-- One committed channel of parseM3U lines 121 to 129.  The nested
    streamInfo object is modeled by the streams field; its tvg metadata
    mirrors the tvgId and name fields. -/
structure Channel where
  id : List Char
  name : List Char
  tvgId : List Char
  logo : Option (List Char)
  group : List Char
  sourceIndex : Nat
  streams : List StreamEntry
  deriving DecidableEq, Repr

/-- Channels and genre set accumulated by parseM3U; genres is the JS Set
    in insertion order. -/
structure SrcState where
  channels : List Channel
  genres : List (List Char)
  deriving DecidableEq, Repr

/-- Insertion into the genre Set: adding an already-present name is a
    no-op, otherwise it is appended, as JS Set insertion order records. -/
def addGenre (gs : List (List Char)) (g : List Char) : List (List Char) :=
  if g ∈ gs then gs else gs ++ [g]

/-- Build the pending channel from a metadata line (already trimmed) that
    starts with the EXTINF tag: parseM3U lines 102 to 129. -/
def mkPending (urlIndex : Nat) (line : List Char) : Channel :=
  let metadata := jsTrim (line.drop 8)
  let name := match afterFirstComma metadata with
    | some r => jsTrim r
    | none => "Unknown".toList
  let tvgId := match matchAttr "tvg-id=\"".toList metadata with
    | some v => v
    | none => slugify name
  let logo := matchAttr "tvg-logo=\"".toList metadata
  let group := match matchAttr "group-title=\"".toList metadata with
    | some v => v
    | none => "Other Channels".toList
  { id := "tv|".toList ++ tvgId ++ '_' :: natRepr urlIndex
    name := name
    tvgId := tvgId
    logo := logo
    group := group
    sourceIndex := urlIndex
    streams := [] }

/-- Line loop of parseM3U lines 99 to 145 for one source.  A metadata line
    replaces the pending channel and records its group; a nonempty line
    starting with http or rtmp while a channel is pending attaches the
    stream, commits the channel, clears the pending state, and, when the
    global channel count has reached the cap, breaks out of the loop,
    leaving the remaining lines of this source unprocessed. -/
def processLines (urlIndex maxCh : Nat) (cur : Option Channel) (st : SrcState) :
    List (List Char) → SrcState
  | [] => st
  | rawLine :: rest =>
    let line := jsTrim rawLine
    if "#EXTINF:".toList.isPrefixOf line then
      let ch := mkPending urlIndex line
      processLines urlIndex maxCh (some ch) { st with genres := addGenre st.genres ch.group } rest
    else
      match cur with
      | some c =>
        if !line.isEmpty && ("http".toList.isPrefixOf line || "rtmp".toList.isPrefixOf line) then
          let c2 := { c with streams := c.streams ++ [{ url := line, name := c.name }] }
          let chs := st.channels ++ [c2]
          if maxCh ≤ chs.length then { st with channels := chs }
          else processLines urlIndex maxCh none { st with channels := chs } rest
        else processLines urlIndex maxCh (some c) st rest
      | none => processLines urlIndex maxCh none st rest

/-- Source loop of parseM3U lines 81 to 155: sources are processed in
    input order; a failed fetch is logged and skipped, leaving the state
    unchanged; a fetched body is split on newlines and run through the
    line loop with no pending channel. -/
def processSources (fetch : List Char → Option (List Char)) (maxCh : Nat) :
    Nat → List (List Char) → SrcState → SrcState
  | _, [], st => st
  | idx, url :: rest, st =>
    processSources fetch maxCh (idx + 1) rest
      (match fetch url with
       | none => st
       | some body => processLines idx maxCh none st (splitOnChar '\n' body))

/-- Model of parseM3U (indexnew.js lines 55 to 159).  The fetch argument
    gives the response body text per URL, none modeling a failed or
    timed-out request; maxCh models cache.maxChannels, which is
    initialized to 10000. -/
def parseM3U (fetch : List Char → Option (List Char)) (maxCh : Nat) (urls : List Char) :
    SrcState :=
  processSources fetch maxCh 0 (normalizeUrls urls)
    { channels := [], genres := ["Other Channels".toList] }

/-- Numeric value of a run of decimal digit characters. -/
def decDigitsVal (l : List Char) : Nat :=
  l.foldl (fun a c => 10 * a + (c.toNat - 48)) 0

/-- Numeric value of a run of hexadecimal digit characters. -/
def hexDigitsVal (l : List Char) : Nat :=
  l.foldl (fun a c => 16 * a + (hexVal c).getD 0) 0

/-- Model of the parseInt builtin with no radix argument: skip leading
    whitespace, read an optional sign, then either a hex literal after a
    zero-x prefix or a run of decimal digits; none models NaN. -/
def jsParseInt (s : List Char) : Option Int :=
  let t := s.dropWhile isJsWs
  let sgn : Int := match t with
    | '-' :: _ => -1
    | _ => 1
  let t2 : List Char := match t with
    | '-' :: r => r
    | '+' :: r => r
    | _ => t
  match t2 with
  | '0' :: x :: r =>
    if x = 'x' ∨ x = 'X' then
      let ds := r.takeWhile (fun c => (hexVal c).isSome)
      if ds.isEmpty then none else some (sgn * (hexDigitsVal ds : Int))
    else
      some (sgn * (decDigitsVal (t2.takeWhile Char.isDigit) : Int))
  | _ =>
    let ds := t2.takeWhile Char.isDigit
    if ds.isEmpty then none else some (sgn * (decDigitsVal ds : Int))

/-- Model of parseUpdateInterval (indexnew.js lines 328 to 339): a missing
    or empty spec gives the two hour default; a spec splitting into
    exactly two colon-separated parts is parsed leniently, hours falling
    back to 2 when unparsable or zero and minutes to 0 when unparsable;
    any other shape gives the default.  The result is milliseconds. -/
def parseUpdateInterval (intervalStr : Option (List Char)) : Int :=
  match intervalStr with
  | none => 2 * 60 * 60 * 1000
  | some l =>
    if l.isEmpty then 2 * 60 * 60 * 1000
    else
      match splitOnChar ':' l with
      | [p0, p1] =>
        let hours : Int := match jsParseInt p0 with
          | none => 2
          | some 0 => 2
          | some h => h
        let minutes : Int := match jsParseInt p1 with
          | none => 0
          | some m => m
        (hours * 60 + minutes) * 60 * 1000
      | _ => 2 * 60 * 60 * 1000

/-- Mutable cache fields involved in the manifest-route playlist refresh
    (indexnew.js lines 19 to 27): the null lastUpdate of a fresh process
    is modeled by none. -/
structure CacheState where
  channels : List Channel
  genres : List (List Char)
  m3uUrl : Option (List Char)
  lastUpdate : Option Int
  deriving DecidableEq, Repr

/-- Model of the cache update step of the manifest route (indexnew.js
    lines 699 to 707): when the requested URL set differs from the cached
    one, no update has happened yet, or the snapshot age exceeds the
    update interval, parseM3U runs and its result replaces the cached
    channels and genres unconditionally, with lastUpdate set to now. -/
def manifestCacheUpdate (fetch : List Char → Option (List Char)) (st : CacheState)
    (m3u : List Char) (interval now : Int) : CacheState :=
  if (!(st.m3uUrl == some m3u) ||
      (match st.lastUpdate with
       | none => true
       | some lu => decide (now - lu > interval))) then
    { channels := (parseM3U fetch 10000 m3u).channels, genres := (parseM3U fetch 10000 m3u).genres,
      m3uUrl := some m3u, lastUpdate := some now }
  else st

/-- Text content shapes xml2js produces for a programme title or
    description node: absent, a plain string, an object with an optional
    underscore text property, or an array of such nodes. -/
inductive JsTextNode where
  | absent : JsTextNode
  | str : List Char → JsTextNode
  | obj : Option (List Char) → JsTextNode
  | arr : List JsTextNode → JsTextNode

/-- Model of getTextContent (indexnew.js lines 317 to 325): a falsy node
    gives the empty string; a nonempty array is inspected at its first
    element, taking it when it is a string and its underscore property,
    defaulted to empty, otherwise; a string is returned as is; otherwise
    the underscore property, defaulted to empty, is returned. -/
def getTextContent : JsTextNode → List Char
  | .absent => []
  | .str s => s
  | .arr (x :: _) =>
    match x with
    | .str s => s
    | .obj (some u) => u
    | _ => []
  | .arr [] => []
  | .obj (some u) => u
  | .obj none => []

/-- Attribute object of a programme node, as the default xml2js parse of
    epg-manager.js produces under the dollar key. -/
structure ProgAttrs where
  channel : Option (List Char)
  start : Option (List Char)
  stop : Option (List Char)

/-- Programme node: optional attribute object, title and description. -/
structure Programme where
  attrs : Option ProgAttrs
  title : JsTextNode
  desc : JsTextNode

/-- Days from 1970-01-01 in the proleptic Gregorian calendar, for a month
    already normalized to the range 1 to 12; the day may lie outside its
    month and extrapolates linearly, exactly like the MakeDay operation of
    the JS Date specification. -/
def daysFromCivil (y m d : Int) : Int :=
  let y2 := if m ≤ 2 then y - 1 else y
  let era := Int.fdiv y2 400
  let yoe := y2 - era * 400
  let mp := Int.emod (m + 9) 12
  let doy := Int.fdiv (153 * mp + 2) 5 + d - 1
  let doe := yoe * 365 + Int.fdiv yoe 4 - Int.fdiv yoe 100 + doy
  era * 146097 + doe - 719468

/-- Model of the JS Date constructor with numeric local-time components,
    as milliseconds of local clock time: years 0 to 99 map to 1900 plus
    the year, out-of-range months roll over into adjacent years, and
    out-of-range day and time fields extrapolate linearly.  The constant
    offset between local clock and UTC is not represented; every Date the
    code compares is built by this same constructor, so comparisons are
    unaffected. -/
def jsLocalMs (year monthIndex day h mi s : Int) : Int :=
  let y2 := if 0 ≤ year ∧ year ≤ 99 then year + 1900 else year
  let ym := y2 + Int.fdiv monthIndex 12
  let mn := monthIndex - 12 * Int.fdiv monthIndex 12
  ((daysFromCivil ym (mn + 1) day * 24 + h) * 3600 + mi * 60 + s) * 1000

/-- Model of parseEPGDate (indexnew.js lines 302 to 315): the value must
    begin with fourteen decimal digits giving year, month, day, hour,
    minute and second, from which a local Date is built; a missing value
    or any other shape gives null.  The result is the Date value in local
    milliseconds. -/
def parseEPGDate (ds : Option (List Char)) : Option Int :=
  match ds with
  | none => none
  | some s =>
    let d := s.take 14
    if d.length = 14 ∧ d.all Char.isDigit then
      some (jsLocalMs (decDigitsVal (d.take 4)) ((decDigitsVal ((d.drop 4).take 2) : Int) - 1)
        (decDigitsVal ((d.drop 6).take 2)) (decDigitsVal ((d.drop 8).take 2))
        (decDigitsVal ((d.drop 10).take 2)) (decDigitsVal ((d.drop 12).take 2)))
    else none

/-- Guide-key normalization of getCurrentProgram line 276: lowercase, then
    strip every character that is not a word character or a dot. -/
def normalizeChanId (s : List Char) : List Char :=
  (s.map jsToLower).filter (fun c => isWordChar c || c = '.')

/-- Value built by getCurrentProgram for the matched programme: extracted
    title and description and the parsed start and stop instants, which
    the code renders as locale time strings whose formatting is not
    modeled. -/
structure ProgramOut where
  title : List Char
  description : List Char
  startMs : Int
  stopMs : Int
  deriving DecidableEq, Repr

/-- Shape of the programme property: xml2js yields a single node for one
    programme element and an array for several; getCurrentProgram line 278
    wraps the single shape into a one-element array. -/
inductive ProgrammeField where
  | single : Programme → ProgrammeField
  | list : List Programme → ProgrammeField

/-- Document shape read by getCurrentProgram: the programme property of
    the tv element, with none for a missing property. -/
structure TvDoc where
  programme : Option ProgrammeField

/-- Loop of getCurrentProgram lines 280 to 298: skip nodes without an
    attribute object; on the first node whose normalized channel equals
    the normalized lookup key and whose parsed window holds now, with both
    bounds inclusive, return its content; otherwise keep scanning. -/
def gcpLoop (normalizedId : List Char) (now : Int) : List Programme → Option ProgramOut
  | [] => none
  | p :: rest =>
    match p.attrs with
    | none => gcpLoop normalizedId now rest
    | some a =>
      if a.channel.map normalizeChanId = some normalizedId then
        match parseEPGDate a.start, parseEPGDate a.stop with
        | some st, some sp =>
          if st ≤ now ∧ sp ≥ now then
            some { title := getTextContent p.title, description := getTextContent p.desc,
                   startMs := st, stopMs := sp }
          else gcpLoop normalizedId now rest
        | _, _ => gcpLoop normalizedId now rest
      else gcpLoop normalizedId now rest

/-- Model of getCurrentProgram (indexnew.js lines 272 to 300), with the
    current instant passed explicitly; none models both a missing guide
    document and the no-match outcome, exactly as the null returns of the
    code. -/
def getCurrentProgram (channelId : List Char) (epgData : Option TvDoc) (now : Int) :
    Option ProgramOut :=
  match epgData with
  | none => none
  | some tv =>
    match tv.programme with
    | none => none
    | some pf =>
      let programmes := match pf with
        | .list ps => ps
        | .single p => [p]
      gcpLoop (normalizeChanId channelId) now programmes

/-- Chunk accumulation of parseEPG lines 199 to 221: the running total
    grows by each chunk length; a chunk that pushes the total over the
    ceiling destroys the stream, so the end event never fires and the
    pending promise is resolved with null only by the outer timer; none
    models that discarded outcome.  Chunks are the decompressed ones when
    the response streams through the gzip stage. -/
def accumulateChunks (maxSize : Nat) : Nat → List (List Char) → Option (List (List Char))
  | _, [] => some []
  | total, c :: rest =>
    if maxSize < total + c.length then none
    else
      match accumulateChunks maxSize (total + c.length) rest with
      | some cs => some (c :: cs)
      | none => none

/-- Model of parseEPG (indexnew.js lines 162 to 269) after the URL
    cleanup: the metadata request reads the declared content length, and a
    declared size above one hundred megabytes abandons the fetch; the
    response chunks are accumulated under the fifty megabyte ceiling; an
    empty accumulation resolves null; otherwise the concatenated text goes
    to the XML toolkit, modeled by the xmlParse argument, whose own
    failure also yields null.  The network transfer is abstracted into the
    declared length and the chunk list. -/
def parseEPGModel (xmlParse : List Char → Option TvDoc) (declaredLen : Nat)
    (chunks : List (List Char)) : Option TvDoc :=
  if 100 * 1024 * 1024 < declaredLen then none
  else
    match accumulateChunks (50 * 1024 * 1024) 0 chunks with
    | none => none
    | some cs => if cs.isEmpty then none else xmlParse cs.join

/-- Document-order first-match predicate with a closed window: the node
    has an attribute object, its normalized channel equals the normalized
    key, both bounds parse, and the window holds now with both ends
    inclusive. -/
def progMatchesClosed (nid : List Char) (now : Int) (p : Programme) : Bool :=
  match p.attrs with
  | none => false
  | some a =>
    decide (a.channel.map normalizeChanId = some nid) &&
      (match parseEPGDate a.start, parseEPGDate a.stop with
       | some st, some sp => decide (st ≤ now) && decide (now ≤ sp)
       | _, _ => false)

/-- Modelled from the spec: the same predicate with the half-open window
    of the claim, the stop bound exclusive. -/
def progMatchesHalfOpen (nid : List Char) (now : Int) (p : Programme) : Bool :=
  match p.attrs with
  | none => false
  | some a =>
    decide (a.channel.map normalizeChanId = some nid) &&
      (match parseEPGDate a.start, parseEPGDate a.stop with
       | some st, some sp => decide (st ≤ now) && decide (now < sp)
       | _, _ => false)

/-- Content the lookup returns for a matched node; the fallback value is
    never used, since a matched node has an attribute object and parsing
    bounds. -/
def progContent (p : Programme) : ProgramOut :=
  match p.attrs with
  | some a =>
    match parseEPGDate a.start, parseEPGDate a.stop with
    | some st, some sp =>
      { title := getTextContent p.title, description := getTextContent p.desc,
        startMs := st, stopMs := sp }
    | _, _ => { title := [], description := [], startMs := 0, stopMs := 0 }
  | none => { title := [], description := [], startMs := 0, stopMs := 0 }

/-- Document-order first match with the closed window, written as a find
    over the programme list: the contract getCurrentProgram satisfies. -/
def specNowPlayingClosed (channelId : List Char) (epgData : Option TvDoc) (now : Int) :
    Option ProgramOut :=
  match epgData with
  | none => none
  | some tv =>
    match tv.programme with
    | none => none
    | some pf =>
      let programmes := match pf with
        | .list ps => ps
        | .single p => [p]
      (programmes.find? (progMatchesClosed (normalizeChanId channelId) now)).map progContent

/-- Modelled from the spec: the lookup the claim describes, whose window
    is half-open, the stop bound exclusive. -/
def specNowPlayingHalfOpen (channelId : List Char) (epgData : Option TvDoc) (now : Int) :
    Option ProgramOut :=
  match epgData with
  | none => none
  | some tv =>
    match tv.programme with
    | none => none
    | some pf =>
      let programmes := match pf with
        | .list ps => ps
        | .single p => [p]
      (programmes.find? (progMatchesHalfOpen (normalizeChanId channelId) now)).map progContent

/-- Modelled from the spec: the URL normalization the claim describes,
    which on a decode failure proceeds with entity normalization,
    parameter stripping and the split on the last successfully decoded
    value instead of the raw input. -/
def specNormalizeLastGood (s : List Char) : List (List Char) :=
  splitTrimFilter (stripParams (entityReplace (decodeToFix s).2))

/-- Shorthand for string literals used by the concrete scenarios. -/
def chars (s : String) : List Char := s.toList

/-- Playlist body with the same tvg-id twice in one source. -/
def bodyA : List Char :=
  chars "#EXTINF:-1 tvg-id=\"a\",X\nhttp://u\n#EXTINF:-1 tvg-id=\"a\",Y\nhttp://v"

/-- Playlist body with one channel carrying logo and group metadata. -/
def bodyB : List Char :=
  chars "#EXTINF:-1 tvg-id=\"b\" tvg-logo=\"http://l\" group-title=\"News\",Z\nhttp://w"

/-- Fetch outcomes of the concrete scenario: two sources respond, any
    other URL fails. -/
def fetchEx (u : List Char) : Option (List Char) :=
  if u = chars "http://a" then some bodyA
  else if u = chars "http://b" then some bodyB
  else none

/-- First committed channel of the first source of the scenario. -/
def chX : Channel :=
  { id := chars "tv|a_0", name := chars "X", tvgId := chars "a", logo := none,
    group := chars "Other Channels", sourceIndex := 0,
    streams := [{ url := chars "http://u", name := chars "X" }] }

/-- Second committed channel of the first source, sharing the id of the
    first. -/
def chY : Channel :=
  { id := chars "tv|a_0", name := chars "Y", tvgId := chars "a", logo := none,
    group := chars "Other Channels", sourceIndex := 0,
    streams := [{ url := chars "http://v", name := chars "Y" }] }

/-- Channel committed by the second source of the scenario. -/
def chZ : Channel :=
  { id := chars "tv|b_1", name := chars "Z", tvgId := chars "b",
    logo := some (chars "http://l"), group := chars "News", sourceIndex := 1,
    streams := [{ url := chars "http://w", name := chars "Z" }] }

/-- Cache state holding one previously fetched channel, used by the
    refresh-failure scenario. -/
def st0 : CacheState :=
  { channels := [chX], genres := [chars "Other Channels"],
    m3uUrl := some (chars "http://a"), lastUpdate := some 0 }

/-- Guide entry of the spec example: one programme on channel bbc1 from
    noon to one in the afternoon. -/
def progEx : Programme :=
  { attrs := some ⟨some (chars "bbc1"), some (chars "20240101120000 +0000"),
      some (chars "20240101130000 +0000")⟩,
    title := .str (chars "News"), desc := .absent }

/-- Guide document holding exactly the example programme. -/
def epgEx : Option TvDoc := some { programme := some (.list [progEx]) }

/-- The instant exactly at the stop bound of the example programme. -/
def nowEx : Int := jsLocalMs 2024 0 1 13 0 0

/-- Channel as committed at a stream line: the pending channel with the
    stream entry appended. -/
def commitCh (cp : Channel) (line : List Char) : Channel :=
  { cp with streams := cp.streams ++ [{ url := line, name := cp.name }] }

theorem processLines_nil (idx maxCh : Nat) (cur : Option Channel) (st : SrcState) :
    processLines idx maxCh cur st [] = st := rfl

theorem processLines_extinf (idx maxCh : Nat) (cur : Option Channel) (st : SrcState)
    (rawLine : List Char) (rest : List (List Char))
    (hp : "#EXTINF:".toList.isPrefixOf (jsTrim rawLine) = true) :
    processLines idx maxCh cur st (rawLine :: rest) =
      processLines idx maxCh (some (mkPending idx (jsTrim rawLine)))
        { st with genres := addGenre st.genres (mkPending idx (jsTrim rawLine)).group } rest := by
  rw [processLines.eq_def]
  simp only [hp, if_true]

theorem processLines_skip_none (idx maxCh : Nat) (st : SrcState)
    (rawLine : List Char) (rest : List (List Char))
    (hp : "#EXTINF:".toList.isPrefixOf (jsTrim rawLine) = false) :
    processLines idx maxCh none st (rawLine :: rest) =
      processLines idx maxCh none st rest := by
  rw [processLines.eq_def]
  simp only [hp]
  rfl

theorem processLines_skip_some (idx maxCh : Nat) (cp : Channel) (st : SrcState)
    (rawLine : List Char) (rest : List (List Char))
    (hp : "#EXTINF:".toList.isPrefixOf (jsTrim rawLine) = false)
    (hu : (!(jsTrim rawLine).isEmpty &&
      ("http".toList.isPrefixOf (jsTrim rawLine) || "rtmp".toList.isPrefixOf (jsTrim rawLine))) = false) :
    processLines idx maxCh (some cp) st (rawLine :: rest) =
      processLines idx maxCh (some cp) st rest := by
  rw [processLines.eq_def]
  simp only [hp, hu]
  rfl

theorem processLines_commit_cap (idx maxCh : Nat) (cp : Channel) (st : SrcState)
    (rawLine : List Char) (rest : List (List Char))
    (hp : "#EXTINF:".toList.isPrefixOf (jsTrim rawLine) = false)
    (hu : (!(jsTrim rawLine).isEmpty &&
      ("http".toList.isPrefixOf (jsTrim rawLine) || "rtmp".toList.isPrefixOf (jsTrim rawLine))) = true)
    (hcap : maxCh ≤ st.channels.length + 1) :
    processLines idx maxCh (some cp) st (rawLine :: rest) =
      { st with channels := st.channels ++ [commitCh cp (jsTrim rawLine)] } := by
  rw [processLines.eq_def]
  simp only [hp, hu, commitCh]
  simp [hcap]

theorem processLines_commit (idx maxCh : Nat) (cp : Channel) (st : SrcState)
    (rawLine : List Char) (rest : List (List Char))
    (hp : "#EXTINF:".toList.isPrefixOf (jsTrim rawLine) = false)
    (hu : (!(jsTrim rawLine).isEmpty &&
      ("http".toList.isPrefixOf (jsTrim rawLine) || "rtmp".toList.isPrefixOf (jsTrim rawLine))) = true)
    (hcap : ¬ maxCh ≤ st.channels.length + 1) :
    processLines idx maxCh (some cp) st (rawLine :: rest) =
      processLines idx maxCh none
        { st with channels := st.channels ++ [commitCh cp (jsTrim rawLine)] } rest := by
  rw [processLines.eq_def]
  simp only [hp, hu, commitCh]
  simp [hcap]

theorem processLines_streams (idx maxCh : Nat) :
    ∀ (lines : List (List Char)) (cur : Option Channel) (st : SrcState),
      (∀ c, cur = some c → c.streams = []) →
      (∀ c ∈ st.channels, c.streams.length = 1) →
      ∀ c ∈ (processLines idx maxCh cur st lines).channels, c.streams.length = 1 := by
  intro lines
  induction lines with
  | nil =>
    intro cur st _ hst c hc
    rw [processLines_nil] at hc
    exact hst c hc
  | cons rawLine rest ih =>
    intro cur st hcur hst c hc
    cases hp : "#EXTINF:".toList.isPrefixOf (jsTrim rawLine) with
    | true =>
      rw [processLines_extinf idx maxCh cur st rawLine rest hp] at hc
      refine ih _ { st with genres := addGenre st.genres (mkPending idx (jsTrim rawLine)).group }
        (fun c2 h2 => ?_) hst c hc
      cases h2
      simp [mkPending]
    | false =>
      cases cur with
      | none =>
        rw [processLines_skip_none idx maxCh st rawLine rest hp] at hc
        exact ih _ _ (by intro c2 h2; cases h2) hst c hc
      | some cp =>
        have hcp : cp.streams = [] := hcur cp rfl
        cases hu : (!(jsTrim rawLine).isEmpty &&
            ("http".toList.isPrefixOf (jsTrim rawLine) ||
              "rtmp".toList.isPrefixOf (jsTrim rawLine))) with
        | false =>
          rw [processLines_skip_some idx maxCh cp st rawLine rest hp hu] at hc
          exact ih _ _ hcur hst c hc
        | true =>
          by_cases hcap : maxCh ≤ st.channels.length + 1
          · rw [processLines_commit_cap idx maxCh cp st rawLine rest hp hu hcap] at hc
            simp at hc
            cases hc with
            | inl h1 => exact hst c h1
            | inr h1 => subst h1; simp [commitCh, hcp]
          · rw [processLines_commit idx maxCh cp st rawLine rest hp hu hcap] at hc
            refine ih _ { st with channels := st.channels ++ [commitCh cp (jsTrim rawLine)] }
              (by intro c2 h2; cases h2) (fun c2 h2 => ?_) c hc
            simp at h2
            cases h2 with
            | inl h1 => exact hst c2 h1
            | inr h1 => subst h1; simp [commitCh, hcp]

theorem processSources_nil (fetch : List Char → Option (List Char)) (maxCh idx : Nat)
    (st : SrcState) : processSources fetch maxCh idx [] st = st := rfl

theorem processSources_cons (fetch : List Char → Option (List Char)) (maxCh idx : Nat)
    (url : List Char) (rest : List (List Char)) (st : SrcState) :
    processSources fetch maxCh idx (url :: rest) st =
      processSources fetch maxCh (idx + 1) rest
        (match fetch url with
         | none => st
         | some body => processLines idx maxCh none st (splitOnChar '\n' body)) := rfl

theorem processSources_streams (fetch : List Char → Option (List Char)) (maxCh : Nat) :
    ∀ (srcs : List (List Char)) (idx : Nat) (st : SrcState),
      (∀ c ∈ st.channels, c.streams.length = 1) →
      ∀ c ∈ (processSources fetch maxCh idx srcs st).channels, c.streams.length = 1 := by
  intro srcs
  induction srcs with
  | nil => intro idx st hst c hc; exact hst c hc
  | cons url rest ih =>
    intro idx st hst c hc
    rw [processSources_cons] at hc
    cases hf : fetch url with
    | none =>
      rw [hf] at hc
      exact ih _ _ hst c hc
    | some body =>
      rw [hf] at hc
      exact ih _ _
        (processLines_streams idx maxCh _ none st (by intro c2 h2; cases h2) hst) c hc

theorem processLines_channels_genres (idx maxCh : Nat) :
    ∀ (lines : List (List Char)) (cur : Option Channel) (chs : List Channel)
      (gs1 gs2 : List (List Char)),
      (processLines idx maxCh cur ⟨chs, gs1⟩ lines).channels =
        (processLines idx maxCh cur ⟨chs, gs2⟩ lines).channels := by
  intro lines
  induction lines with
  | nil => intro cur chs gs1 gs2; rw [processLines_nil, processLines_nil]
  | cons rawLine rest ih =>
    intro cur chs gs1 gs2
    cases hp : "#EXTINF:".toList.isPrefixOf (jsTrim rawLine) with
    | true =>
      rw [processLines_extinf idx maxCh cur _ rawLine rest hp,
        processLines_extinf idx maxCh cur _ rawLine rest hp]
      exact ih _ chs _ _
    | false =>
      cases cur with
      | none =>
        rw [processLines_skip_none idx maxCh _ rawLine rest hp,
          processLines_skip_none idx maxCh _ rawLine rest hp]
        exact ih _ chs _ _
      | some cp =>
        cases hu : (!(jsTrim rawLine).isEmpty &&
            ("http".toList.isPrefixOf (jsTrim rawLine) ||
              "rtmp".toList.isPrefixOf (jsTrim rawLine))) with
        | false =>
          rw [processLines_skip_some idx maxCh cp _ rawLine rest hp hu,
            processLines_skip_some idx maxCh cp _ rawLine rest hp hu]
          exact ih _ chs _ _
        | true =>
          by_cases hcap : maxCh ≤ chs.length + 1
          · rw [processLines_commit_cap idx maxCh cp _ rawLine rest hp hu hcap,
              processLines_commit_cap idx maxCh cp _ rawLine rest hp hu hcap]
          · rw [processLines_commit idx maxCh cp _ rawLine rest hp hu hcap,
              processLines_commit idx maxCh cp _ rawLine rest hp hu hcap]
            exact ih _ _ _ _

theorem normalizeUrls_no_pct (s : List Char) (h : '%' ∉ s) :
    normalizeUrls s = splitTrimFilter (stripParams (entityReplace s)) := by
  unfold normalizeUrls
  rw [decodeToFix_no_pct s h]

/-- Shape of every committed id: the tv prefix, the channel tvg-id, an
    underscore, and the decimal source index, with the recorded source
    index of the channel itself. -/
def IdShape (c : Channel) : Prop :=
  c.id = "tv|".toList ++ c.tvgId ++ '_' :: natRepr c.sourceIndex

theorem mkPending_id_shape (idx : Nat) (line : List Char) : IdShape (mkPending idx line) := by
  simp [IdShape, mkPending]

theorem commitCh_id_shape {cp : Channel} (h : IdShape cp) (line : List Char) :
    IdShape (commitCh cp line) := h

theorem processLines_id_shape (idx maxCh : Nat) :
    ∀ (lines : List (List Char)) (cur : Option Channel) (st : SrcState),
      (∀ c, cur = some c → IdShape c) →
      (∀ c ∈ st.channels, IdShape c) →
      ∀ c ∈ (processLines idx maxCh cur st lines).channels, IdShape c := by
  intro lines
  induction lines with
  | nil =>
    intro cur st _ hst c hc
    rw [processLines_nil] at hc
    exact hst c hc
  | cons rawLine rest ih =>
    intro cur st hcur hst c hc
    cases hp : "#EXTINF:".toList.isPrefixOf (jsTrim rawLine) with
    | true =>
      rw [processLines_extinf idx maxCh cur st rawLine rest hp] at hc
      refine ih _ { st with genres := addGenre st.genres (mkPending idx (jsTrim rawLine)).group }
        (fun c2 h2 => ?_) hst c hc
      cases h2
      exact mkPending_id_shape idx (jsTrim rawLine)
    | false =>
      cases cur with
      | none =>
        rw [processLines_skip_none idx maxCh st rawLine rest hp] at hc
        exact ih _ _ (by intro c2 h2; cases h2) hst c hc
      | some cp =>
        have hcp : IdShape cp := hcur cp rfl
        cases hu : (!(jsTrim rawLine).isEmpty &&
            ("http".toList.isPrefixOf (jsTrim rawLine) ||
              "rtmp".toList.isPrefixOf (jsTrim rawLine))) with
        | false =>
          rw [processLines_skip_some idx maxCh cp st rawLine rest hp hu] at hc
          exact ih _ _ hcur hst c hc
        | true =>
          by_cases hcap : maxCh ≤ st.channels.length + 1
          · rw [processLines_commit_cap idx maxCh cp st rawLine rest hp hu hcap] at hc
            simp at hc
            cases hc with
            | inl h1 => exact hst c h1
            | inr h1 => subst h1; exact commitCh_id_shape hcp _
          · rw [processLines_commit idx maxCh cp st rawLine rest hp hu hcap] at hc
            refine ih _ { st with channels := st.channels ++ [commitCh cp (jsTrim rawLine)] }
              (by intro c2 h2; cases h2) (fun c2 h2 => ?_) c hc
            simp at h2
            cases h2 with
            | inl h1 => exact hst c2 h1
            | inr h1 => subst h1; exact commitCh_id_shape hcp _

theorem processSources_id_shape (fetch : List Char → Option (List Char)) (maxCh : Nat) :
    ∀ (srcs : List (List Char)) (idx : Nat) (st : SrcState),
      (∀ c ∈ st.channels, IdShape c) →
      ∀ c ∈ (processSources fetch maxCh idx srcs st).channels, IdShape c := by
  intro srcs
  induction srcs with
  | nil => intro idx st hst c hc; exact hst c hc
  | cons url rest ih =>
    intro idx st hst c hc
    rw [processSources_cons] at hc
    cases hf : fetch url with
    | none =>
      rw [hf] at hc
      exact ih _ _ hst c hc
    | some body =>
      rw [hf] at hc
      exact ih _ _
        (processLines_id_shape idx maxCh _ none st (by intro c2 h2; cases h2) hst) c hc

theorem parseM3U_id_shape (fetch : List Char → Option (List Char)) (maxCh : Nat)
    (urls : List Char) : ∀ c ∈ (parseM3U fetch maxCh urls).channels, IdShape c :=
  processSources_id_shape fetch maxCh (normalizeUrls urls) 0 _
    (by intro c2 h2; cases h2)

theorem processLines_length_le (idx maxCh : Nat) :
    ∀ (lines : List (List Char)) (cur : Option Channel) (st : SrcState),
      (processLines idx maxCh cur st lines).channels.length ≤
        max maxCh (st.channels.length + 1) := by
  intro lines
  induction lines with
  | nil =>
    intro cur st
    rw [processLines_nil]
    omega
  | cons rawLine rest ih =>
    intro cur st
    cases hp : "#EXTINF:".toList.isPrefixOf (jsTrim rawLine) with
    | true =>
      rw [processLines_extinf idx maxCh cur st rawLine rest hp]
      exact ih _ _
    | false =>
      cases cur with
      | none =>
        rw [processLines_skip_none idx maxCh st rawLine rest hp]
        exact ih _ _
      | some cp =>
        cases hu : (!(jsTrim rawLine).isEmpty &&
            ("http".toList.isPrefixOf (jsTrim rawLine) ||
              "rtmp".toList.isPrefixOf (jsTrim rawLine))) with
        | false =>
          rw [processLines_skip_some idx maxCh cp st rawLine rest hp hu]
          exact ih _ _
        | true =>
          by_cases hcap : maxCh ≤ st.channels.length + 1
          · rw [processLines_commit_cap idx maxCh cp st rawLine rest hp hu hcap]
            simp
          · rw [processLines_commit idx maxCh cp st rawLine rest hp hu hcap]
            have h1 := ih none { st with channels := st.channels ++ [commitCh cp (jsTrim rawLine)] }
            simp at h1
            simp
            omega

theorem processLines_stop (idx maxCh : Nat) :
    ∀ (lines : List (List Char)) (cur : Option Channel) (st : SrcState),
      maxCh ≤ st.channels.length →
      (processLines idx maxCh cur st lines).channels.length ≤ st.channels.length + 1 := by
  intro lines
  induction lines with
  | nil =>
    intro cur st _
    rw [processLines_nil]
    omega
  | cons rawLine rest ih =>
    intro cur st hcap0
    cases hp : "#EXTINF:".toList.isPrefixOf (jsTrim rawLine) with
    | true =>
      rw [processLines_extinf idx maxCh cur st rawLine rest hp]
      exact ih _ _ hcap0
    | false =>
      cases cur with
      | none =>
        rw [processLines_skip_none idx maxCh st rawLine rest hp]
        exact ih _ _ hcap0
      | some cp =>
        cases hu : (!(jsTrim rawLine).isEmpty &&
            ("http".toList.isPrefixOf (jsTrim rawLine) ||
              "rtmp".toList.isPrefixOf (jsTrim rawLine))) with
        | false =>
          rw [processLines_skip_some idx maxCh cp st rawLine rest hp hu]
          exact ih _ _ hcap0
        | true =>
          have hcap : maxCh ≤ st.channels.length + 1 := by omega
          rw [processLines_commit_cap idx maxCh cp st rawLine rest hp hu hcap]
          simp

theorem processSources_length (fetch : List Char → Option (List Char)) (maxCh : Nat) :
    ∀ (srcs : List (List Char)) (idx : Nat) (st : SrcState),
      (processSources fetch maxCh idx srcs st).channels.length ≤
        max maxCh st.channels.length + srcs.length := by
  intro srcs
  induction srcs with
  | nil =>
    intro idx st
    rw [processSources_nil]
    simp
  | cons url rest ih =>
    intro idx st
    rw [processSources_cons]
    cases hf : fetch url with
    | none =>
      have h1 := ih (idx + 1) st
      simp only [List.length_cons]
      omega
    | some body =>
      have h1 := ih (idx + 1) (processLines idx maxCh none st (splitOnChar '\n' body))
      have h2 := processLines_length_le idx maxCh (splitOnChar '\n' body) none st
      simp only [List.length_cons]
      omega

theorem processSources_all_fail (fetch : List Char → Option (List Char))
    (hf : ∀ u, fetch u = none) (maxCh : Nat) :
    ∀ (srcs : List (List Char)) (idx : Nat) (st : SrcState),
      processSources fetch maxCh idx srcs st = st := by
  intro srcs
  induction srcs with
  | nil => intro idx st; rfl
  | cons url rest ih =>
    intro idx st
    rw [processSources_cons, hf url]
    exact ih _ _

theorem parseM3U_all_fail (fetch : List Char → Option (List Char))
    (hf : ∀ u, fetch u = none) (maxCh : Nat) (urls : List Char) :
    parseM3U fetch maxCh urls = { channels := [], genres := ["Other Channels".toList] } := by
  unfold parseM3U
  exact processSources_all_fail fetch hf maxCh _ 0 _

theorem parseM3U_exA :
    parseM3U fetchEx 10000 (chars "http://a") =
      { channels := [chX, chY], genres := [chars "Other Channels"] } := by
  unfold parseM3U
  rw [normalizeUrls_no_pct _ (by decide)]
  decide

theorem parseM3U_exAB :
    parseM3U fetchEx 10000 (chars "http://a,http://b") =
      { channels := [chX, chY, chZ], genres := [chars "Other Channels", chars "News"] } := by
  unfold parseM3U
  rw [normalizeUrls_no_pct _ (by decide)]
  decide

theorem parseM3U_exAB_cap2 :
    parseM3U fetchEx 2 (chars "http://a,http://b") =
      { channels := [chX, chY, chZ], genres := [chars "Other Channels", chars "News"] } := by
  unfold parseM3U
  rw [normalizeUrls_no_pct _ (by decide)]
  decide

/-- C10: every channel committed by parseM3U carries exactly one stream
    entry.  The first URL line after a metadata line attaches the stream,
    commits the channel, and resets the pending state, so any further
    stream lines before the next metadata line are ignored and a committed
    streams sequence never has length other than one. -/
theorem c10_committed_single_stream (fetch : List Char → Option (List Char))
    (maxCh : Nat) (urls : List Char) :
    ∀ c ∈ (parseM3U fetch maxCh urls).channels, c.streams.length = 1 :=
  processSources_streams fetch maxCh (normalizeUrls urls) 0 _
    (by intro c2 h2; cases h2)

theorem c10_committed_single_stream_w :
    chX ∈ (parseM3U fetchEx 10000 (chars "http://a")).channels ∧ chX.streams.length = 1 := by
  have hm : chX ∈ (parseM3U fetchEx 10000 (chars "http://a")).channels := by
    rw [parseM3U_exA]
    simp
  exact ⟨hm, c10_committed_single_stream fetchEx 10000 (chars "http://a") chX hm⟩

/-- C5: every channel committed by parseM3U has a nonempty streams
    sequence, and a metadata line followed directly by another metadata
    line commits no channel for the first: the committed channels are the
    same as if the first metadata line were absent. -/
theorem c5_committed_channels_have_streams :
    (∀ (fetch : List Char → Option (List Char)) (maxCh : Nat) (urls : List Char),
      ∀ c ∈ (parseM3U fetch maxCh urls).channels, c.streams ≠ []) ∧
    (∀ (idx maxCh : Nat) (cur : Option Channel) (st : SrcState) (e1 e2 : List Char)
        (rest : List (List Char)),
      "#EXTINF:".toList.isPrefixOf (jsTrim e1) = true →
      "#EXTINF:".toList.isPrefixOf (jsTrim e2) = true →
      (processLines idx maxCh cur st (e1 :: e2 :: rest)).channels =
        (processLines idx maxCh cur st (e2 :: rest)).channels) := by
  constructor
  · intro fetch maxCh urls c hc
    have h1 := processSources_streams fetch maxCh (normalizeUrls urls) 0 _
      (by intro c2 h2; cases h2) c hc
    intro hnil
    rw [hnil] at h1
    simp at h1
  · intro idx maxCh cur st e1 e2 rest h1 h2
    obtain ⟨chs, gs⟩ := st
    rw [processLines_extinf idx maxCh cur _ e1 (e2 :: rest) h1,
      processLines_extinf idx maxCh _ _ e2 rest h2,
      processLines_extinf idx maxCh cur _ e2 rest h2]
    exact processLines_channels_genres idx maxCh rest _ chs _ _

theorem c5_committed_channels_have_streams_w :
    chY ∈ (parseM3U fetchEx 10000 (chars "http://a")).channels ∧
    chY.streams ≠ [] ∧
    (processLines 0 10000 none { channels := [], genres := [] }
        [chars "#EXTINF:-1,AA", chars "#EXTINF:-1,BB", chars "http://s"]).channels =
      (processLines 0 10000 none { channels := [], genres := [] }
        [chars "#EXTINF:-1,BB", chars "http://s"]).channels := by
  have hm : chY ∈ (parseM3U fetchEx 10000 (chars "http://a")).channels := by
    rw [parseM3U_exA]
    simp
  exact ⟨hm, c5_committed_channels_have_streams.1 fetchEx 10000 (chars "http://a") chY hm,
    c5_committed_channels_have_streams.2 0 10000 none _ _ _ _ (by decide) (by decide)⟩

theorem mcu_all_fail (fetch : List Char → Option (List Char)) (st : CacheState)
    (m3u : List Char) (interval now : Int) (hf : ∀ u, fetch u = none)
    (hdue : st.m3uUrl ≠ some m3u ∨ st.lastUpdate = none ∨
      (∃ lu, st.lastUpdate = some lu ∧ now - lu > interval)) :
    manifestCacheUpdate fetch st m3u interval now =
      { channels := [], genres := ["Other Channels".toList],
        m3uUrl := some m3u, lastUpdate := some now } := by
  unfold manifestCacheUpdate
  have hdueb : (!(st.m3uUrl == some m3u) ||
      (match st.lastUpdate with
       | none => true
       | some lu => decide (now - lu > interval))) = true := by
    rcases hdue with h | h | ⟨lu, hl, hgt⟩
    · rw [Bool.or_eq_true, Bool.not_eq_true']
      exact Or.inl (beq_eq_false_iff_ne.mpr h)
    · rw [h]
      simp
    · rw [hl]
      simp [hgt]
  rw [hdueb, if_pos rfl, parseM3U_all_fail fetch hf 10000 m3u]

theorem mcu_fresh_skip (fetch : List Char → Option (List Char)) (st : CacheState)
    (m3u : List Char) (interval now2 t : Int) (h1 : st.m3uUrl = some m3u)
    (h2 : st.lastUpdate = some t) (h3 : now2 - t ≤ interval) :
    manifestCacheUpdate fetch st m3u interval now2 = st := by
  unfold manifestCacheUpdate
  have hdueb : (!(st.m3uUrl == some m3u) ||
      (match st.lastUpdate with
       | none => true
       | some lu => decide (now2 - lu > interval))) = false := by
    rw [h1, h2]
    simp
    omega
  rw [hdueb]
  simp

/-- C1 amended: when every playlist source fetch fails during a due
    refresh, parseM3U returns the empty catalog, and the manifest route
    replaces the cached channels and genres with that empty result and
    stamps lastUpdate with the current time, so the previous snapshot is
    discarded; any read within the update interval then serves the empty
    catalog unchanged instead of retrying. -/
theorem c1_failed_refresh_replaces_snapshot (fetch : List Char → Option (List Char))
    (st : CacheState) (m3u : List Char) (interval now : Int)
    (hf : ∀ u, fetch u = none)
    (hdue : st.m3uUrl ≠ some m3u ∨ st.lastUpdate = none ∨
      (∃ lu, st.lastUpdate = some lu ∧ now - lu > interval)) :
    manifestCacheUpdate fetch st m3u interval now =
      { channels := [], genres := ["Other Channels".toList],
        m3uUrl := some m3u, lastUpdate := some now } ∧
    (∀ (fetch2 : List Char → Option (List Char)) (now2 : Int), now2 - now ≤ interval →
      manifestCacheUpdate fetch2 (manifestCacheUpdate fetch st m3u interval now)
        m3u interval now2 = manifestCacheUpdate fetch st m3u interval now) := by
  have hmain := mcu_all_fail fetch st m3u interval now hf hdue
  refine ⟨hmain, fun fetch2 now2 hle => ?_⟩
  rw [hmain]
  exact mcu_fresh_skip fetch2 _ m3u interval now2 now rfl rfl hle

theorem c1_failed_refresh_replaces_snapshot_w :
    (∀ u : List Char, (fun _ : List Char => (none : Option (List Char))) u = none) ∧
    (∃ lu, st0.lastUpdate = some lu ∧ (7200001 : Int) - lu > 7200000) ∧
    manifestCacheUpdate (fun _ => none) st0 (chars "http://a") 7200000 7200001 =
      { channels := [], genres := ["Other Channels".toList],
        m3uUrl := some (chars "http://a"), lastUpdate := some 7200001 } := by
  refine ⟨fun u => rfl, ⟨0, rfl, by norm_num⟩, ?_⟩
  exact (c1_failed_refresh_replaces_snapshot (fun _ => none) st0 (chars "http://a")
    7200000 7200001 (fun u => rfl) (Or.inr (Or.inr ⟨0, rfl, by norm_num⟩))).1

/-- C1 counterexample: with a nonempty cached snapshot and every source
    fetch failing, a due refresh replaces the cached channels with the
    empty list and stamps lastUpdate, instead of retaining the previous
    snapshot. -/
theorem c1_failed_refresh_cex :
    (manifestCacheUpdate (fun _ => none) st0 (chars "http://a") 7200000 7200001).channels = [] ∧
    st0.channels ≠ [] ∧
    (manifestCacheUpdate (fun _ => none) st0 (chars "http://a") 7200000 7200001).lastUpdate =
      some 7200001 := by
  have h := mcu_all_fail (fun _ => none) st0 (chars "http://a") 7200000 7200001
    (fun u => rfl) (Or.inr (Or.inr ⟨0, rfl, by norm_num⟩))
  rw [h]
  refine ⟨rfl, ?_, rfl⟩
  decide

/-- C2 counterexample: one source whose playlist carries the same tvg-id
    on two channels commits two channels with the same id, so the ids of
    one snapshot are not pairwise distinct. -/
theorem c2_duplicate_id_cex :
    (parseM3U fetchEx 10000 (chars "http://a")).channels.map Channel.id =
      [chars "tv|a_0", chars "tv|a_0"] ∧
    ¬ ((parseM3U fetchEx 10000 (chars "http://a")).channels.map Channel.id).Nodup := by
  rw [parseM3U_exA]
  exact ⟨by decide, by decide⟩

/-- C2 amended: channel ids are distinct across sources: two committed
    channels with different source indices always have different ids,
    because the decimal source index after the last underscore separates
    them; the same tvg-id repeated within a single source, however, yields
    the same id. -/
theorem c2_ids_distinct_across_sources (fetch : List Char → Option (List Char))
    (maxCh : Nat) (urls : List Char) :
    ∀ c1 ∈ (parseM3U fetch maxCh urls).channels,
      ∀ c2 ∈ (parseM3U fetch maxCh urls).channels,
        c1.sourceIndex ≠ c2.sourceIndex → c1.id ≠ c2.id := by
  intro c1 h1 c2 h2 hne heq
  have s1 := parseM3U_id_shape fetch maxCh urls c1 h1
  have s2 := parseM3U_id_shape fetch maxCh urls c2 h2
  rw [IdShape] at s1 s2
  rw [s1, s2] at heq
  have heq2 : ("tv|".toList ++ c1.tvgId) ++ '_' :: natRepr c1.sourceIndex =
      ("tv|".toList ++ c2.tvgId) ++ '_' :: natRepr c2.sourceIndex := by
    rw [List.append_assoc, List.append_assoc]
    exact heq
  exact hne (natRepr_inj _ _ (us_suffix_eq _ (natRepr_no_us c1.sourceIndex)
    (natRepr_no_us c2.sourceIndex) heq2))

theorem c2_ids_distinct_across_sources_w :
    chX ∈ (parseM3U fetchEx 10000 (chars "http://a,http://b")).channels ∧
    chZ ∈ (parseM3U fetchEx 10000 (chars "http://a,http://b")).channels ∧
    chX.sourceIndex ≠ chZ.sourceIndex ∧ chX.id ≠ chZ.id := by
  have h1 : chX ∈ (parseM3U fetchEx 10000 (chars "http://a,http://b")).channels := by
    rw [parseM3U_exAB]
    simp
  have h2 : chZ ∈ (parseM3U fetchEx 10000 (chars "http://a,http://b")).channels := by
    rw [parseM3U_exAB]
    simp
  exact ⟨h1, h2, by decide,
    c2_ids_distinct_across_sources fetchEx 10000 _ chX h1 chZ h2 (by decide)⟩

/-- C7 counterexample: with a cap of two and two sources of two and one
    channels, the first source stops at the cap, but the second source is
    still fetched and commits one more channel, so the snapshot exceeds
    the cap and holds a channel of the later source. -/
theorem c7_later_sources_not_skipped_cex :
    (parseM3U fetchEx 2 (chars "http://a,http://b")).channels.length = 3 ∧
    (parseM3U fetchEx 2 (chars "http://a,http://b")).channels.map Channel.sourceIndex =
      [0, 0, 1] := by
  rw [parseM3U_exAB_cap2]
  exact ⟨rfl, rfl⟩

/-- C7 amended: once the committed channel count has reached the cap,
    processing of the current source commits at most one further channel
    and stops; later sources are not skipped: each source is still fetched
    and can commit one more channel, so the catalog size is bounded by the
    cap plus the number of sources rather than by the cap. -/
theorem c7_channel_cap :
    (∀ (idx maxCh : Nat) (cur : Option Channel) (st : SrcState) (lines : List (List Char)),
      maxCh ≤ st.channels.length →
      (processLines idx maxCh cur st lines).channels.length ≤ st.channels.length + 1) ∧
    (∀ (fetch : List Char → Option (List Char)) (maxCh : Nat) (urls : List Char),
      (parseM3U fetch maxCh urls).channels.length ≤ maxCh + (normalizeUrls urls).length) := by
  constructor
  · intro idx maxCh cur st lines h
    exact processLines_stop idx maxCh lines cur st h
  · intro fetch maxCh urls
    have h := processSources_length fetch maxCh (normalizeUrls urls) 0
      { channels := [], genres := ["Other Channels".toList] }
    unfold parseM3U
    simp only [List.length_nil, Nat.max_zero] at h
    exact h

theorem c7_channel_cap_w :
    2 ≤ ([chX, chY] : List Channel).length ∧
    (processLines 1 2 none { channels := [chX, chY], genres := [] }
      [chars "#EXTINF:-1,Q", chars "http://q"]).channels.length ≤ 3 ∧
    (parseM3U fetchEx 2 (chars "http://a,http://b")).channels.length ≤
      2 + (normalizeUrls (chars "http://a,http://b")).length := by
  exact ⟨by decide, c7_channel_cap.1 1 2 none _ _ (by decide),
    c7_channel_cap.2 fetchEx 2 _⟩

theorem accumulateChunks_overflow (maxSize : Nat) :
    ∀ (chunks : List (List Char)) (total : Nat), total ≤ maxSize →
      maxSize < total + (chunks.map List.length).sum →
      accumulateChunks maxSize total chunks = none := by
  intro chunks
  induction chunks with
  | nil =>
    intro total h1 h2
    simp at h2
    omega
  | cons c rest ih =>
    intro total h1 h2
    rw [accumulateChunks]
    by_cases hc : maxSize < total + c.length
    · rw [if_pos hc]
    · rw [if_neg hc, ih (total + c.length) (by omega) (by simp at h2 ⊢; omega)]

/-- C6: a guide document whose declared content length exceeds the hundred
    megabyte ceiling, or whose streamed decompressed size exceeds the
    fifty megabyte accumulation ceiling, never produces a guide index:
    parseEPG resolves null, discarding the partially accumulated chunks
    rather than parsing truncated XML. -/
theorem c6_oversized_guide_yields_none (xmlParse : List Char → Option TvDoc)
    (declaredLen : Nat) (chunks : List (List Char))
    (h : 100 * 1024 * 1024 < declaredLen ∨
      50 * 1024 * 1024 < (chunks.map List.length).sum) :
    parseEPGModel xmlParse declaredLen chunks = none := by
  unfold parseEPGModel
  by_cases h1 : 100 * 1024 * 1024 < declaredLen
  · rw [if_pos h1]
  · rw [if_neg h1]
    rcases h with h2 | h2
    · omega
    · rw [accumulateChunks_overflow (50 * 1024 * 1024) chunks 0 (by omega) (by omega)]

theorem c6_oversized_guide_yields_none_w :
    (100 * 1024 * 1024 < 104857601 ∨
      50 * 1024 * 1024 < (([] : List (List Char)).map List.length).sum) ∧
    parseEPGModel (fun _ => none) 104857601 [] = none :=
  ⟨Or.inl (by norm_num), c6_oversized_guide_yields_none (fun _ => none) 104857601 []
    (Or.inl (by norm_num))⟩

/-- C8 counterexample: the spec string of a colon followed by thirty is
    not of the HH colon MM form, yet parseUpdateInterval returns nine
    million milliseconds, two and a half hours, rather than the 7200000 of
    the 02:00 default. -/
theorem c8_malformed_spec_cex :
    parseUpdateInterval (some (chars ":30")) = 9000000 ∧ (9000000 : Int) ≠ 7200000 :=
  ⟨by decide, by decide⟩

/-- C8 amended: an absent or empty spec, and every spec that does not
    split into exactly two colon-separated parts, falls back to the two
    hour default of 7200000 milliseconds; a spec with exactly two parts is
    instead parsed leniently part by part, unparsable or zero hours
    falling back to two and unparsable minutes to zero, so a malformed
    hours part with a well-formed minutes part does not yield the
    default. -/
theorem c8_interval_fallback :
    parseUpdateInterval none = 7200000 ∧
    (∀ l : List Char, l = [] ∨ (splitOnChar ':' l).length ≠ 2 →
      parseUpdateInterval (some l) = 7200000) := by
  refine ⟨by decide, fun l h => ?_⟩
  rcases h with h | h
  · subst h
    decide
  · unfold parseUpdateInterval
    dsimp only
    by_cases he : l.isEmpty
    · simp [he]
    · rw [if_neg (by simp [he])]
      cases hsp : splitOnChar ':' l with
      | nil => rfl
      | cons p0 t =>
        cases t with
        | nil => rfl
        | cons p1 t2 =>
          cases t2 with
          | nil =>
            exfalso
            apply h
            rw [hsp]
            rfl
          | cons p2 t3 => rfl

theorem c8_interval_fallback_w :
    (chars "1:2:3" = ([] : List Char) ∨ (splitOnChar ':' (chars "1:2:3")).length ≠ 2) ∧
    parseUpdateInterval (some (chars "1:2:3")) = 7200000 :=
  ⟨Or.inr (by decide), c8_interval_fallback.2 (chars "1:2:3") (Or.inr (by decide))⟩

theorem decodeToFix_exC9 :
    decodeToFix (chars "http://a&epg=x,%25") = (false, chars "http://a&epg=x,%") := by
  have h1 : decodeCore (chars "http://a&epg=x,%25") = some (chars "http://a&epg=x,%") := by
    decide
  rw [decodeToFix_step _ _ (by decide) h1 (by decide)]
  exact decodeToFix_fail _ (by decide) (by decide)

/-- C9 amended: when the repeated decode fails, parseM3U does not proceed
    on the last successfully decoded value: its catch block reverts to the
    original raw input and skips entity normalization and
    control-parameter stripping, proceeding directly to the split, trim
    and filter; parseEPG, in contrast, keeps the last successfully decoded
    value.  Neither aborts. -/
theorem c9_decode_failure_uses_original (s v : List Char)
    (h : decodeToFix s = (false, v)) :
    normalizeUrls s = splitTrimFilter s ∧ epgCleanUrl s = v := by
  constructor
  · unfold normalizeUrls
    rw [h]
  · unfold epgCleanUrl
    rw [h]

theorem c9_decode_failure_uses_original_w :
    decodeToFix (chars "http://a&epg=x,%25") = (false, chars "http://a&epg=x,%") ∧
    normalizeUrls (chars "http://a&epg=x,%25") =
      splitTrimFilter (chars "http://a&epg=x,%25") ∧
    epgCleanUrl (chars "http://a&epg=x,%25") = chars "http://a&epg=x,%" :=
  ⟨decodeToFix_exC9,
    (c9_decode_failure_uses_original _ _ decodeToFix_exC9).1,
    (c9_decode_failure_uses_original _ _ decodeToFix_exC9).2⟩

/-- C9 counterexample: on this input the decode loop fails after one
    successful decode; the claimed behavior, proceeding on the last good
    value, would strip the epg control parameter and produce a URL list
    different from the one parseM3U builds from the raw input. -/
theorem c9_decode_fallback_cex :
    normalizeUrls (chars "http://a&epg=x,%25") ≠
      specNormalizeLastGood (chars "http://a&epg=x,%25") := by
  unfold normalizeUrls specNormalizeLastGood
  rw [decodeToFix_exC9]
  decide

theorem gcpLoop_eq_find (nid : List Char) (now : Int) : ∀ ps : List Programme,
    gcpLoop nid now ps = (ps.find? (progMatchesClosed nid now)).map progContent := by
  intro ps
  induction ps with
  | nil => rfl
  | cons p rest ih =>
    rw [gcpLoop]
    cases hat : p.attrs with
    | none =>
      rw [List.find?_cons_of_neg _ (by simp [progMatchesClosed, hat])]
      exact ih
    | some a =>
      dsimp only
      by_cases hch : a.channel.map normalizeChanId = some nid
      · rw [if_pos hch]
        cases hs : parseEPGDate a.start with
        | none =>
          rw [List.find?_cons_of_neg _ (by simp [progMatchesClosed, hat, hs])]
          exact ih
        | some st =>
          cases hp2 : parseEPGDate a.stop with
          | none =>
            rw [List.find?_cons_of_neg _ (by simp [progMatchesClosed, hat, hs, hp2])]
            exact ih
          | some sp =>
            dsimp only
            by_cases hw : st ≤ now ∧ sp ≥ now
            · rw [if_pos hw, List.find?_cons_of_pos _ (by
                simp [progMatchesClosed, hat, hch, hs, hp2]
                exact ⟨hw.1, hw.2⟩)]
              simp [progContent, hat, hs, hp2]
            · rw [if_neg hw, List.find?_cons_of_neg _ (by
                simp [progMatchesClosed, hat, hch, hs, hp2]
                intro hc1
                omega)]
              exact ih
      · rw [if_neg hch, List.find?_cons_of_neg _ (by simp [progMatchesClosed, hat, hch])]
        exact ih

/-- C4 amended: programme lookup returns the first programme in document
    order whose channel, normalized by lowercasing and stripping non-word
    characters other than the dot, matches the normalized key and whose
    parsed window holds the instant with both bounds inclusive, the closed
    window start to stop; it returns none when the guide document or the
    programme list is missing, when the key matches no entry, and when no
    window holds the instant, a normal outcome; overlapping windows are
    tie-broken by document order. -/
theorem c4_lookup_closed_window (channelId : List Char) (epgData : Option TvDoc)
    (now : Int) :
    getCurrentProgram channelId epgData now = specNowPlayingClosed channelId epgData now := by
  unfold getCurrentProgram specNowPlayingClosed
  cases epgData with
  | none => rfl
  | some tv =>
    obtain ⟨pr⟩ := tv
    cases pr with
    | none => rfl
    | some pf =>
      cases pf with
      | single p => exact gcpLoop_eq_find _ _ [p]
      | list ps => exact gcpLoop_eq_find _ _ ps

/-- C4 counterexample: at the instant exactly equal to the parsed stop
    bound the code returns the programme, because its window check is
    inclusive on both ends, while the claimed half-open window lookup
    returns none there. -/
theorem c4_halfopen_cex :
    (getCurrentProgram (chars "bbc1") epgEx nowEx).isSome = true ∧
    specNowPlayingHalfOpen (chars "bbc1") epgEx nowEx = none :=
  ⟨by decide, by decide⟩

theorem dropWhile_idem (p : Char → Bool) :
    ∀ l : List Char, (l.dropWhile p).dropWhile p = l.dropWhile p := by
  intro l
  induction l with
  | nil => rfl
  | cons c rest ih =>
    rw [List.dropWhile_cons]
    by_cases h : p c
    · rw [if_pos h]
      exact ih
    · rw [if_neg h, List.dropWhile_cons, if_neg h]

theorem dropWhile_head_false (p : Char → Bool) :
    ∀ (l : List Char) {c : Char} {t : List Char}, l.dropWhile p = c :: t → p c = false := by
  intro l
  induction l with
  | nil => intro c t h; cases h
  | cons c2 rest ih =>
    intro c t h
    rw [List.dropWhile_cons] at h
    by_cases h2 : p c2
    · rw [if_pos h2] at h
      exact ih h
    · rw [if_neg h2] at h
      obtain ⟨h3, _⟩ := List.cons.inj h
      rw [← h3]
      exact Bool.of_not_eq_true h2

theorem dropWhile_of_head_false (p : Char → Bool) :
    ∀ l : List Char, (∀ c t, l = c :: t → p c = false) → l.dropWhile p = l := by
  intro l h
  cases l with
  | nil => rfl
  | cons c rest =>
    rw [List.dropWhile_cons, if_neg]
    rw [h c rest rfl]
    simp

theorem jsTrim_idem (s : List Char) : jsTrim (jsTrim s) = jsTrim s := by
  have hpre : ∃ u, jsTrim s ++ u = s.dropWhile isJsWs := by
    refine ⟨((s.dropWhile isJsWs).reverse.takeWhile isJsWs).reverse, ?_⟩
    rw [jsTrim, ← List.reverse_append, List.takeWhile_append_dropWhile, List.reverse_reverse]
  have hstep1 : (jsTrim s).dropWhile isJsWs = jsTrim s := by
    apply dropWhile_of_head_false
    intro c t hct
    obtain ⟨u, hu⟩ := hpre
    rw [hct] at hu
    exact dropWhile_head_false isJsWs s
      (show s.dropWhile isJsWs = c :: (t ++ u) by rw [← hu]; rfl)
  conv_lhs => rw [jsTrim]
  rw [hstep1]
  rw [show jsTrim s = ((s.dropWhile isJsWs).reverse.dropWhile isJsWs).reverse from rfl]
  rw [List.reverse_reverse, dropWhile_idem]

theorem mem_jsTrim {a : Char} {s : List Char} (h : a ∈ jsTrim s) : a ∈ s := by
  unfold jsTrim at h
  rw [List.mem_reverse] at h
  have h2 : a ∈ (s.dropWhile isJsWs).reverse := by
    rw [← List.takeWhile_append_dropWhile isJsWs (s.dropWhile isJsWs).reverse]
    exact List.mem_append_right _ h
  rw [List.mem_reverse] at h2
  rw [← List.takeWhile_append_dropWhile isJsWs s]
  exact List.mem_append_right _ h2

theorem splitOnChar_ne_nil (sep : Char) : ∀ s : List Char, splitOnChar sep s ≠ [] := by
  intro s
  cases s with
  | nil => simp [splitOnChar]
  | cons c rest =>
    rw [splitOnChar]
    by_cases h : c = sep
    · rw [if_pos h]
      simp
    · rw [if_neg h]
      cases hsp : splitOnChar sep rest with
      | nil => simp
      | cons s2 ss => simp

theorem splitOnChar_not_mem (sep : Char) :
    ∀ (s : List Char) (x : List Char), x ∈ splitOnChar sep s → sep ∉ x := by
  intro s
  induction s with
  | nil =>
    intro x hx
    rw [splitOnChar] at hx
    simp at hx
    subst hx
    simp
  | cons c rest ih =>
    intro x hx
    rw [splitOnChar] at hx
    by_cases h : c = sep
    · rw [if_pos h] at hx
      cases List.mem_cons.mp hx with
      | inl h1 => subst h1; simp
      | inr h1 => exact ih x h1
    · rw [if_neg h] at hx
      cases hsp : splitOnChar sep rest with
      | nil => exact absurd hsp (splitOnChar_ne_nil sep rest)
      | cons s2 ss =>
        rw [hsp] at hx
        cases List.mem_cons.mp hx with
        | inl h1 =>
          subst h1
          intro hm
          cases List.mem_cons.mp hm with
          | inl h2 => exact h h2.symm
          | inr h2 => exact ih s2 (hsp ▸ List.mem_cons_self s2 ss) h2
        | inr h1 => exact ih x (hsp ▸ List.mem_cons_of_mem s2 h1)

theorem splitOnChar_no_sep (sep : Char) :
    ∀ y : List Char, sep ∉ y → splitOnChar sep y = [y] := by
  intro y
  induction y with
  | nil => intro _; rfl
  | cons c rest ih =>
    intro h
    have hc : ¬ c = sep := fun hh => h (hh ▸ List.mem_cons_self c rest)
    rw [splitOnChar, if_neg hc, ih (fun hm => h (List.mem_cons_of_mem c hm))]

theorem splitOnChar_append (sep : Char) :
    ∀ (y z : List Char), sep ∉ y →
      splitOnChar sep (y ++ sep :: z) = y :: splitOnChar sep z := by
  intro y
  induction y with
  | nil =>
    intro z _
    simp [splitOnChar]
  | cons c rest ih =>
    intro z h
    have hc : ¬ c = sep := fun hh => h (hh ▸ List.mem_cons_self c rest)
    rw [List.cons_append, splitOnChar, if_neg hc,
      ih z (fun hm => h (List.mem_cons_of_mem c hm))]

/-- Join a URL list back into the comma-separated form in which a
    configuration round trip resubmits it. -/
def joinComma : List (List Char) → List Char
  | [] => []
  | [y] => y
  | y :: ys => y ++ ',' :: joinComma ys

theorem splitOnChar_joinComma :
    ∀ ys : List (List Char), ys ≠ [] → (∀ y ∈ ys, ',' ∉ y) →
      splitOnChar ',' (joinComma ys) = ys := by
  intro ys
  induction ys with
  | nil => intro h _; exact absurd rfl h
  | cons y ys2 ih =>
    intro _ hall
    cases ys2 with
    | nil =>
      rw [joinComma]
      exact splitOnChar_no_sep ',' y (hall y (List.mem_cons_self y []))
    | cons y2 ys3 =>
      rw [joinComma, splitOnChar_append ',' y (joinComma (y2 :: ys3))
        (hall y (List.mem_cons_self y _)),
        ih (List.cons_ne_nil y2 ys3) (fun w hw => hall w (List.mem_cons_of_mem y hw))]
      exact fun h => absurd h (List.cons_ne_nil y2 ys3)

theorem splitTrimFilter_elem (z : List Char) :
    ∀ u ∈ splitTrimFilter z,
      jsTrim u = u ∧ (!u.isEmpty && "http".toList.isPrefixOf u) = true ∧ ',' ∉ u := by
  intro u hu
  unfold splitTrimFilter at hu
  have h1 := List.of_mem_filter hu
  have h2 := List.mem_of_mem_filter hu
  obtain ⟨w, hw, hwu⟩ := List.mem_map.mp h2
  subst hwu
  exact ⟨jsTrim_idem w, h1,
    fun hm => splitOnChar_not_mem ',' z w hw (mem_jsTrim hm)⟩

theorem normalizeUrls_elem (s : List Char) :
    ∀ u ∈ normalizeUrls s,
      jsTrim u = u ∧ (!u.isEmpty && "http".toList.isPrefixOf u) = true ∧ ',' ∉ u := by
  unfold normalizeUrls
  cases h : decodeToFix s with
  | mk ok v =>
    cases ok with
    | true => exact splitTrimFilter_elem _
    | false => exact splitTrimFilter_elem _

theorem splitTrimFilter_joinComma (y : List (List Char))
    (hel : ∀ u ∈ y, jsTrim u = u ∧ (!u.isEmpty && "http".toList.isPrefixOf u) = true ∧
      ',' ∉ u) :
    splitTrimFilter (joinComma y) = y := by
  cases y with
  | nil => decide
  | cons y0 ys =>
    unfold splitTrimFilter
    rw [splitOnChar_joinComma (y0 :: ys) (List.cons_ne_nil y0 ys)
      (fun w hw => (hel w hw).2.2)]
    rw [List.map_congr_left (g := id) (fun a ha => (hel a ha).1), List.map_id]
    exact List.filter_eq_self.mpr (fun a ha => (hel a ha).2.1)

/-- C3 amended: normalization is idempotent only conditionally.  First,
    for every input whose normalized output, rejoined on commas, holds no
    percent sign, is unchanged by ampersand entity replacement, and is
    unchanged by control-parameter stripping, renormalizing that output
    returns it unchanged; the counterexample shows the entity condition is
    necessary, and a decode failure can likewise leave strippable
    parameters in the output.  Second, when the remaining decode chain
    completes without error, one decode step never changes the result, so
    a URL list percent-encoded several times reaches the same output as
    its once-decoded form, level by level; when the chain fails, the
    fallback keeps each level's own raw input instead. -/
theorem c3_normalization_idempotent_conditional :
    (∀ s : List Char,
      '%' ∉ joinComma (normalizeUrls s) →
      entityReplace (joinComma (normalizeUrls s)) = joinComma (normalizeUrls s) →
      stripParams (joinComma (normalizeUrls s)) = joinComma (normalizeUrls s) →
      normalizeUrls (joinComma (normalizeUrls s)) = normalizeUrls s) ∧
    (∀ s t : List Char, decodeCore s = some t → (decodeToFix t).1 = true →
      normalizeUrls s = normalizeUrls t) := by
  constructor
  · intro s hpct hent hstr
    rw [normalizeUrls_no_pct _ hpct, hent, hstr]
    exact splitTrimFilter_joinComma (normalizeUrls s) (normalizeUrls_elem s)
  · intro s t h hok
    by_cases hp : '%' ∈ s
    · by_cases hts : t = s
      · rw [hts]
      · unfold normalizeUrls
        rw [decodeToFix_step s t hp h hts]
        cases hv : decodeToFix t with
        | mk ok v =>
          rw [hv] at hok
          cases ok with
          | true => rfl
          | false => exact absurd hok (by simp)
    · have h2 := decodeCore_no_pct s hp
      rw [h] at h2
      injection h2 with h3
      rw [h3]

theorem normalizeUrls_exA : normalizeUrls (chars "http://a") = [chars "http://a"] := by
  rw [normalizeUrls_no_pct _ (by decide)]
  decide

theorem c3_normalization_idempotent_conditional_w :
    '%' ∉ joinComma (normalizeUrls (chars "http://a")) ∧
    entityReplace (joinComma (normalizeUrls (chars "http://a"))) =
      joinComma (normalizeUrls (chars "http://a")) ∧
    stripParams (joinComma (normalizeUrls (chars "http://a"))) =
      joinComma (normalizeUrls (chars "http://a")) ∧
    normalizeUrls (joinComma (normalizeUrls (chars "http://a"))) =
      normalizeUrls (chars "http://a") ∧
    decodeCore (chars "http://a%20b") = some (chars "http://a b") ∧
    (decodeToFix (chars "http://a b")).1 = true ∧
    normalizeUrls (chars "http://a%20b") = normalizeUrls (chars "http://a b") := by
  have h1 : '%' ∉ joinComma (normalizeUrls (chars "http://a")) := by
    rw [normalizeUrls_exA]
    decide
  have h2 : entityReplace (joinComma (normalizeUrls (chars "http://a"))) =
      joinComma (normalizeUrls (chars "http://a")) := by
    rw [normalizeUrls_exA]
    decide
  have h3 : stripParams (joinComma (normalizeUrls (chars "http://a"))) =
      joinComma (normalizeUrls (chars "http://a")) := by
    rw [normalizeUrls_exA]
    decide
  have h4 : (decodeToFix (chars "http://a b")).1 = true := by
    rw [decodeToFix_no_pct (chars "http://a b") (by decide)]
  exact ⟨h1, h2, h3,
    c3_normalization_idempotent_conditional.1 (chars "http://a") h1 h2 h3,
    by decide, h4,
    c3_normalization_idempotent_conditional.2 (chars "http://a%20b") (chars "http://a b")
      (by decide) h4⟩

/-- C3 counterexample: normalizing this URL rewrites the doubled
    ampersand entity into a single entity, and normalizing that output
    rewrites it again into a bare ampersand, so normalization applied to
    its own output does not return it unchanged. -/
theorem c3_idempotence_cex :
    normalizeUrls (joinComma (normalizeUrls (chars "http://x?a&amp;amp;b"))) ≠
      normalizeUrls (chars "http://x?a&amp;amp;b") := by
  have h1 : normalizeUrls (chars "http://x?a&amp;amp;b") = [chars "http://x?a&amp;b"] := by
    rw [normalizeUrls_no_pct _ (by decide)]
    decide
  rw [h1]
  have h2 : normalizeUrls (joinComma [chars "http://x?a&amp;b"]) =
      [chars "http://x?a&b"] := by
    rw [show joinComma [chars "http://x?a&amp;b"] = chars "http://x?a&amp;b" from rfl,
      normalizeUrls_no_pct _ (by decide)]
    decide
  rw [h2]
  decide
